import Mathlib

/-!
Verification of the line-classification and synonym-reconciliation engine of
the `oaks` repository (`src/scrapers/oaksoftheworld/name_parser.py`,
`parser.py`, `scraper.py`).

The Python code is embedded shallowly at the character level: text is
`List Char`, and every regular-expression operation of the source is
translated into an explicit recursive matcher that realises exactly the
semantics of the concrete pattern used by the source (leftmost match,
greedy and non-greedy repetition as it behaves on that pattern).
`log_inconsistency` is a pure no-op side channel in `name_parser.py`
(the log never influences the returned data), so the pure parsing
functions drop it; the chain resolver of `parser.py`, whose claims speak
about the note stream, threads the note list explicitly.
-/

set_option maxRecDepth 4000

/-- Plain text, one Python `str`, as a list of characters. -/
abbrev Str := List Char

/-- Python `str.strip` / `\s` whitespace class, restricted to the ASCII
whitespace characters (space, tab, newline, carriage return, vertical tab,
form feed) that occur in the scraped markup. -/
def isSpace (c : Char) : Bool :=
  c = ' ' || c = '\t' || c = '\n' || c = '\r' || c = '\x0b' || c = '\x0c'

/-- Python `str.strip()`: remove leading and trailing whitespace. -/
def pyStrip (s : Str) : Str :=
  ((s.dropWhile isSpace).reverse.dropWhile isSpace).reverse

/-- Python `str.split()` with no argument: split on whitespace runs,
discarding empty tokens. -/
def pySplitWS (s : Str) : List Str :=
  (s.splitOnP isSpace).filter (fun w => !w.isEmpty)

/-- Python `' '.join(words)`. -/
def pyJoinSpace (ws : List Str) : Str :=
  List.intercalate [' '] ws

/-- Python `str.lower()` (ASCII case folding; the only non-ASCII character
appearing in the claims, the multiplication sign, is case-invariant). -/
def pyLower (s : Str) : Str := s.map Char.toLower

/-- Match a literal pattern case-insensitively at the head of the input
(`re.IGNORECASE` literal matching); returns the rest of the input. -/
def matchCI : Str → Str → Option Str
  | [], s => some s
  | _ :: _, [] => none
  | p :: ps, c :: cs => if p.toLower = c.toLower then matchCI ps cs else none

/-- Split a list on a separator character, keeping empty chunks
(Python `str.split(',')` and `str.split('\n')`). -/
def splitChar (sep : Char) : Str → List Str
  | [] => [[]]
  | c :: cs =>
    let rest := splitChar sep cs
    if c = sep then [] :: rest
    else match rest with
      | [] => [[c]]
      | r :: rs => (c :: r) :: rs

/-- Python truthiness of an optional string: `None` and `''` are falsy. -/
def truthy : Option Str → Bool
  | none => false
  | some s => !s.isEmpty

/-! ## `name_parser.extract_species_from_url`

Source pattern: `re.search(r'quercus_([^.]+)\.htm', url, re.IGNORECASE)`.
`[^.]+` is greedy and is followed by a literal dot, so at a given start
position the captured run is exactly the maximal dot-free run after
`quercus_`, which must be non-empty and be followed by `.htm`. `re.search`
tries start positions left to right. -/

/-- One `re.search` attempt per start position for `quercus_([^.]+)\.htm`. -/
def searchSpecies : Str → Option Str
  | [] => none
  | c :: cs =>
    match matchCI "quercus_".toList (c :: cs) with
    | some after =>
      let run := after.takeWhile (fun ch => ch ≠ '.')
      if run.isEmpty then searchSpecies cs
      else if (matchCI ".htm".toList (after.drop run.length)).isSome then some run
      else searchSpecies cs
    | none => searchSpecies cs

/-- `name_parser.extract_species_from_url`: `'quercus_alba.htm' -> 'alba'`. -/
def extract_species_from_url (url : Str) : Option Str := searchSpecies url

/-! ## Tag stripping and entity decoding

Source: `re.sub(r'<[^>]+>', '', text)` followed by `.strip()` and
`html.unescape`. `[^>]+` greedy followed by `>` consumes exactly up to the
first `>`, and needs at least one character between the brackets; on a
non-match `re.sub` keeps the character and moves one position right. -/

/-- One replacement pass of `re.sub(r'<[^>]+>', '', ...)`, fuelled by the
input length (each step consumes at least one character). -/
def stripTagsAux : Nat → Str → Str
  | 0, s => s
  | _ + 1, [] => []
  | fuel + 1, c :: cs =>
    if c = '<' then
      let body := cs.takeWhile (fun ch => ch ≠ '>')
      if body.isEmpty then c :: stripTagsAux fuel cs
      else match cs.drop body.length with
        | '>' :: rest => stripTagsAux fuel rest
        | _ => c :: stripTagsAux fuel cs
    else c :: stripTagsAux fuel cs

def stripTags (s : Str) : Str := stripTagsAux (s.length + 1) s

/-- `html.unescape`, modelled for the basic named character references
(`&amp;` `&lt;` `&gt;` `&quot;`); other text passes through unchanged.
The scraped list pages contain no other references on the lines the
claims quantify over concretely. -/
def htmlUnescapeAux : Nat → Str → Str
  | 0, s => s
  | _ + 1, [] => []
  | fuel + 1, c :: cs =>
    if c = '&' then
      match matchCI "amp;".toList cs with
      | some rest => '&' :: htmlUnescapeAux fuel rest
      | none =>
        match matchCI "lt;".toList cs with
        | some rest => '<' :: htmlUnescapeAux fuel rest
        | none =>
          match matchCI "gt;".toList cs with
          | some rest => '>' :: htmlUnescapeAux fuel rest
          | none =>
            match matchCI "quot;".toList cs with
            | some rest => '"' :: htmlUnescapeAux fuel rest
            | none => c :: htmlUnescapeAux fuel cs
    else c :: htmlUnescapeAux fuel cs

def htmlUnescape (s : Str) : Str := htmlUnescapeAux (s.length + 1) s

/-- `name_parser.strip_html_tags`: remove tags, strip, decode entities. -/
def strip_html_tags (s : Str) : Str := htmlUnescape (pyStrip (stripTags s))

/-! ## `name_parser.is_hybrid`

Source: `re.search(r'\(x\)|×|x\.', text, re.IGNORECASE)`. -/

/-- `name_parser.is_hybrid`: the text contains `(x)`, `×`, or `x.`
(case-insensitively), at any position. -/
def is_hybrid : Str → Bool
  | [] => false
  | c :: cs =>
    (matchCI "(x)".toList (c :: cs)).isSome
    || c = '×'
    || (matchCI "x.".toList (c :: cs)).isSome
    || is_hybrid cs

/-! ## `name_parser.extract_links_from_line`

Source pattern (found with `re.finditer`, `re.IGNORECASE`):
`<a\s+href="(quercus_[^"]+\.htm)"[^>]*>(.*?)</a>`.

At a given start position the match is deterministic: `\s+` must stop at
the first non-space, the quote-free run of group 1 must equal the whole
region up to the closing quote and end in `.htm`, `[^>]*>` consumes up to
the first `>`, and the non-greedy group 2 ends at the first following
`</a>` (with `.` not matching a newline). -/

/-- Non-greedy `(.*?)</a>`: content up to the first `</a>`, failing on a
newline (`.` does not match `\n` without `re.DOTALL`). -/
def findCloseA : Str → Option (Str × Str)
  | [] => none
  | c :: cs =>
    match matchCI "</a>".toList (c :: cs) with
    | some rest => some ([], rest)
    | none =>
      if c = '\n' then none
      else (findCloseA cs).map (fun p => (c :: p.1, p.2))

/-- Try the link pattern at the head of `s`; on success returns
`(href, raw link markup, rest of input after the closing tag)`. -/
def tryMatchLink (s : Str) : Option (Str × Str × Str) :=
  match matchCI "<a".toList s with
  | none => none
  | some s1 =>
    let w := s1.takeWhile isSpace
    if w.isEmpty then none
    else
      let s2 := s1.drop w.length
      match matchCI "href=\"".toList s2 with
      | none => none
      | some s3 =>
        match matchCI "quercus_".toList s3 with
        | none => none
        | some s4 =>
          let run := s4.takeWhile (fun ch => ch ≠ '"')
          if run.length < 5 then none
          else if (matchCI ".htm".toList (run.drop (run.length - 4))).isNone then none
          else match s4.drop run.length with
            | '"' :: s5 =>
              let tagRest := s5.takeWhile (fun ch => ch ≠ '>')
              match s5.drop tagRest.length with
              | '>' :: s6 => (findCloseA s6).map (fun p => (s3.take 8 ++ run, p.1, p.2))
              | _ => none
            | _ => none

/-- The post-processing the source applies to each link's inner markup:
strip tags, strip whitespace, decode entities. -/
def processLinkText (linkHtml : Str) : Str := htmlUnescape (pyStrip (stripTags linkHtml))

/-- `re.finditer` scan: try the pattern at each position left to right and
continue after each match. Fuelled by the input length; every step consumes
at least one character. -/
def extractLinksAux : Nat → Str → List (Str × Str)
  | 0, _ => []
  | _ + 1, [] => []
  | fuel + 1, c :: cs =>
    match tryMatchLink (c :: cs) with
    | some (href, linkHtml, rest) => (href, processLinkText linkHtml) :: extractLinksAux fuel rest
    | none => extractLinksAux fuel cs

/-- `name_parser.extract_links_from_line`: all `(href, link_text)` pairs. -/
def extract_links_from_line (line : Str) : List (Str × Str) :=
  extractLinksAux (line.length + 1) line

/-! ## The SYNONYM_EQUALS separator

Source: `re.search(r'\s*=\s+', text)` and
`re.split(r'\s*=\s+', text, maxsplit=1)`. A match is an `=` directly
followed by whitespace; the leading `\s*` extends the match backwards over
the whitespace run before the `=`, and the trailing `\s+` greedily eats the
whitespace run after it. -/

/-- Leftmost split on `\s*=\s+`: `acc` holds the reversed prefix scanned
so far. Returns the two parts of `re.split(..., maxsplit=1)`. -/
def splitEqAux (acc : Str) : Str → Option (Str × Str)
  | [] => none
  | c :: rest =>
    if c = '=' then
      match rest with
      | c2 :: _ =>
        if isSpace c2 then some ((acc.dropWhile isSpace).reverse, rest.dropWhile isSpace)
        else splitEqAux (c :: acc) rest
      | [] => none
    else splitEqAux (c :: acc) rest

def splitEq (s : Str) : Option (Str × Str) := splitEqAux [] s

/-- The `re.search(r'\s*=\s+', ...)` test of `parse_line`; the search
pattern is the split pattern, so the test is the split's success. -/
def containsEqSep (s : Str) : Bool := (splitEq s).isSome

/-! ## The SYNONYM_SEE separator

Source: `re.search(r':\s*see:?\s+', text, re.IGNORECASE)` and the
corresponding `re.split(..., maxsplit=1)`. After `see`, the optional colon
is taken only when whitespace follows it (otherwise the required `\s+`
fails both with and without the colon). -/

/-- Match `:\s*see:?\s+` at the head; returns the text after the match. -/
def seeMatchAt : Str → Option Str
  | ':' :: rest =>
    let r1 := rest.dropWhile isSpace
    match matchCI "see".toList r1 with
    | none => none
    | some r2 =>
      match r2 with
      | ':' :: r3 =>
        match r3 with
        | c :: _ => if isSpace c then some (r3.dropWhile isSpace) else none
        | [] => none
      | c :: _ => if isSpace c then some (r2.dropWhile isSpace) else none
      | [] => none
  | _ => none

def splitSeeAux (acc : Str) : Str → Option (Str × Str)
  | [] => none
  | c :: rest =>
    match seeMatchAt (c :: rest) with
    | some right => some (acc.reverse, right)
    | none => splitSeeAux (c :: acc) rest

def splitSee (s : Str) : Option (Str × Str) := splitSeeAux [] s

/-- The `re.search(r':\s*see:?\s+', ...)` test of `parse_line`. -/
def containsSeeSep (s : Str) : Bool := (splitSee s).isSome

/-! ## Start-of-line link test

Source: `re.match(r'^\s*(?:<[^>]+>)*\s*<a\s+href="quercus_', line,
re.IGNORECASE)`: optional leading whitespace, a run of complete adjacent
tags, optional whitespace, then the opening of the authoritative link. -/

/-- Consume one complete `<[^>]+>` tag at the head. -/
def isTagAt : Str → Option Str
  | '<' :: rest =>
    let body := rest.takeWhile (fun ch => ch ≠ '>')
    if body.isEmpty then none
    else match rest.drop body.length with
      | '>' :: r2 => some r2
      | _ => none
  | _ => none

/-- `<a\s+href="quercus_` at the head (case-insensitive). -/
def matchesAhref (s : Str) : Bool :=
  match matchCI "<a".toList s with
  | none => false
  | some s1 =>
    let w := s1.takeWhile isSpace
    if w.isEmpty then false
    else (matchCI "href=\"quercus_".toList (s1.drop w.length)).isSome

def afterTagsAux : Nat → Str → Bool
  | 0, _ => false
  | fuel + 1, s =>
    matchesAhref (s.dropWhile isSpace)
    || (match isTagAt s with
        | some rest => afterTagsAux fuel rest
        | none => false)

/-- The `re.match(r'^\s*(?:<[^>]+>)*\s*<a\s+href="quercus_', ...)` test. -/
def startsWithLink (line : Str) : Bool :=
  afterTagsAux (line.length + 1) (line.dropWhile isSpace)

/-! ## The classified entry and the five entry-type parsers -/

/-- The `entry_type` strings of `name_parser.parse_line`. -/
inductive EntryType where
  | ACCEPTED_SPECIES
  | ACCEPTED_HYBRID
  | SYNONYM_EQUALS
  | SYNONYM_SEE
  | OTHER_LINK
deriving DecidableEq

/-- One synonym sub-record `{'name': ..., 'author': ...}`. -/
structure SynRec where
  name : Option Str
  author : Option Str
deriving DecidableEq

/-- The dict returned by `parse_line`. -/
structure Entry where
  entry_type : EntryType
  species_name : Str
  author : Option Str
  url : Str
  is_hybrid : Bool
  synonyms : List SynRec
  raw_line : Str
deriving DecidableEq

/-- The normalisation `if author and not author.strip(): author = None`
applied by the species/equals/see/other parsers. -/
def pyNormIfBlank : Option Str → Option Str
  | none => none
  | some a => if !a.isEmpty && (pyStrip a).isEmpty then none else some a

/-- `' '.join(words[1:]).strip() if len(words) > 1 else None`. -/
def joinedTail (ws : List Str) : Option Str :=
  match ws with
  | [] => none
  | [_] => none
  | _ :: rest => some (pyStrip (pyJoinSpace rest))

/-- `' '.join(ws).strip() if ws else None`. -/
def joinedAll (ws : List Str) : Option Str :=
  if ws.isEmpty then none else some (pyStrip (pyJoinSpace ws))

/-- `urllib.parse.urljoin(base, href)` for the use in this module: a
relative `quercus_*.htm` href joined onto a base URL that ends in a
slash, which concatenates the two. -/
def pyUrljoin (base href : Str) : Str := base ++ href

/-- `name_parser.parse_accepted_species`: first word of the visible text
is the name (cross-checked only in the log), the rest is the author. -/
def parse_accepted_species (visible url sp raw : Str) : Option Entry :=
  match pySplitWS visible with
  | [] => none
  | words =>
    some { entry_type := .ACCEPTED_SPECIES
           species_name := sp
           author := pyNormIfBlank (joinedTail words)
           url := url
           is_hybrid := false
           synonyms := []
           raw_line := raw }

/-- `re.sub(r'^[×x]\s*', '', text, flags=re.IGNORECASE)`: remove one
leading hybrid letter and the whitespace run after it. -/
def subLeadingHybrid (s : Str) : Str :=
  match s with
  | c :: rest => if c = '×' || c.toLower = 'x' then rest.dropWhile isSpace else s
  | [] => []

/-- `re.sub(r'\(x\)|x\.', '', text, flags=re.IGNORECASE)`: remove every
embedded `(x)` / `x.` marker. -/
def removeMarkersAux : Nat → Str → Str
  | 0, s => s
  | _ + 1, [] => []
  | fuel + 1, c :: cs =>
    match matchCI "(x)".toList (c :: cs) with
    | some rest => removeMarkersAux fuel rest
    | none =>
      match matchCI "x.".toList (c :: cs) with
      | some rest => removeMarkersAux fuel rest
      | none => c :: removeMarkersAux fuel cs

def removeMarkers (s : Str) : Str := removeMarkersAux (s.length + 1) s

/-- The author normalisation of `parse_accepted_hybrid`
(`... = None` when blank, else `author.strip()`). -/
def hybridNormAuthor : Option Str → Option Str
  | none => none
  | some a =>
    if !a.isEmpty && (pyStrip a).isEmpty then none
    else if !a.isEmpty then some (pyStrip a)
    else some a

/-- `name_parser.parse_accepted_hybrid`. If the text starts with `×` or
`x ` (after lowering), that token is stripped and the next word is the
name; otherwise embedded `(x)` / `x.` markers are removed first. Always
returns an entry. -/
def parse_accepted_hybrid (visible url sp raw : Str) : Entry :=
  let words :=
    if (match visible with | '×' :: _ => true | _ => false)
        || ("x ".toList).isPrefixOf (pyLower visible) then
      pySplitWS (pyStrip (subLeadingHybrid visible))
    else
      pySplitWS (pyStrip (removeMarkers visible))
  { entry_type := .ACCEPTED_HYBRID
    species_name := sp
    author := hybridNormAuthor (joinedTail words)
    url := url
    is_hybrid := true
    synonyms := []
    raw_line := raw }

/-- The right-hand-side word split of `parse_synonym_equals`: when the
first word is exactly `x` (case-insensitively) and a second word exists,
the accepted-name text is the second word and the author words start at
the third; otherwise the first word is the name. Returns
`(accepted_name_text, author_words)`. -/
def eqRhsSplit (ws : List Str) : Option Str × List Str :=
  match ws with
  | w0 :: w1 :: rest =>
    if pyLower (pyStrip w0) = "x".toList then (some (pyStrip w1), rest)
    else (some (pyStrip w0), w1 :: rest)
  | [w0] => (some (pyStrip w0), [])
  | [] => (none, [])

/-- `name_parser.parse_synonym_equals`. -/
def parse_synonym_equals (visible url sp raw : Str) : Option Entry :=
  match splitEq visible with
  | none => none
  | some (l, r) =>
    let synonym_part := pyStrip l
    let accepted_part := pyStrip r
    let synWords := pySplitWS synonym_part
    let synonym_name := (synWords.head?).map pyStrip
    let synonym_author := pyNormIfBlank (joinedTail synWords)
    let rhs := eqRhsSplit (pySplitWS accepted_part)
    let accepted_author := pyNormIfBlank (joinedAll rhs.2)
    some { entry_type := .SYNONYM_EQUALS
           species_name := sp
           author := accepted_author
           url := url
           is_hybrid := is_hybrid accepted_part
           synonyms := [{ name := synonym_name, author := synonym_author }]
           raw_line := raw }

/-- One comma-separated item of the left side of a `: see` line:
`{name, author}` when the stripped item is non-empty and its first word
is truthy. -/
def seeSynEntry (item : Str) : Option SynRec :=
  let syn := pyStrip item
  if syn.isEmpty then none
  else
    match pySplitWS syn with
    | [] => none
    | w :: rest =>
      let name := pyStrip w
      if name.isEmpty then none
      else some { name := some name, author := pyNormIfBlank (joinedTail (w :: rest)) }

/-- `name_parser.parse_synonym_see`. -/
def parse_synonym_see (visible url sp raw : Str) : Option Entry :=
  match splitSee visible with
  | none => none
  | some (l, r) =>
    let synonyms_part := pyStrip l
    let accepted_part := pyStrip r
    let synonym_entries := (splitChar ',' synonyms_part).filterMap seeSynEntry
    let accepted_author := pyNormIfBlank (joinedTail (pySplitWS accepted_part))
    some { entry_type := .SYNONYM_SEE
           species_name := sp
           author := accepted_author
           url := url
           is_hybrid := is_hybrid accepted_part
           synonyms := synonym_entries
           raw_line := raw }

/-- The author scan of `parse_other_link`: the text after the first word
equal (case-insensitively) to the URL-derived name. -/
def otherAuthor (sp : Str) : List Str → Option Str
  | [] => none
  | w :: rest =>
    if pyLower w = pyLower sp then
      (match rest with | [] => none | _ => some (pyStrip (pyJoinSpace rest)))
    else otherAuthor sp rest

/-- `name_parser.parse_other_link`. -/
def parse_other_link (visible url sp raw : Str) : Entry :=
  { entry_type := .OTHER_LINK
    species_name := sp
    author := pyNormIfBlank (otherAuthor sp (pySplitWS visible))
    url := url
    is_hybrid := is_hybrid visible
    synonyms := []
    raw_line := raw }

/-- `name_parser.parse_line`. The `log_inconsistency` calls of the source
(multiple distinct hrefs, name mismatches) only write to the log and are
dropped by this pure embedding. -/
def parse_line (line base : Str) : Option Entry :=
  let line := pyStrip line
  match extract_links_from_line line with
  | [] => none
  | (href, _) :: _ =>
    let main_url := pyUrljoin base href
    match extract_species_from_url href with
    | none => none
    | some sp =>
      if sp.isEmpty then none
      else
        let visible := strip_html_tags line
        if containsSeeSep visible then parse_synonym_see visible main_url sp line
        else if containsEqSep visible then parse_synonym_equals visible main_url sp line
        else if startsWithLink line then
          if is_hybrid visible then some (parse_accepted_hybrid visible main_url sp line)
          else parse_accepted_species visible main_url sp line
        else some (parse_other_link visible main_url sp line)

/-! ## The aggregator of `name_parser.parse_species_list_html`

Python dicts are insertion-ordered maps; they are embedded as association
lists whose keys are unique by construction: assignment to an absent key
appends at the end, assignment to a present key replaces in place. -/

/-- Dict lookup. -/
def alFind {β : Type} : List (Str × β) → Str → Option β
  | [], _ => none
  | (k', v) :: rest, k => if k' = k then some v else alFind rest k

/-- Dict assignment `d[k] = v`. -/
def alSet {β : Type} : List (Str × β) → Str → β → List (Str × β)
  | [], k, v => [(k, v)]
  | (k', v') :: rest, k, v =>
    if k' = k then (k', v) :: rest else (k', v') :: alSet rest k v

/-- A synonym-map value item `{'accepted_name': ..., 'synonym_author': ...}`. -/
structure Mapping where
  accepted_name : Str
  synonym_author : Option Str
deriving DecidableEq

/-- One synonym sub-entry attached to an accepted record in the final
step, `{'name': ..., 'author': ...}`. -/
structure SynOut where
  name : Str
  author : Option Str
deriving DecidableEq

/-- One value of the `accepted_species` dict. -/
structure SpeciesRec where
  name : Str
  author : Option Str
  url : Str
  is_hybrid : Bool
  synonyms : List SynOut
deriving DecidableEq

/-- The two dicts the fold maintains. -/
structure AggState where
  accepted : List (Str × SpeciesRec)
  synMap : List (Str × List Mapping)
deriving DecidableEq

def initState : AggState := { accepted := [], synMap := [] }

/-- The fresh record created for a first sighting. -/
def mkRec (e : Entry) : SpeciesRec :=
  { name := e.species_name, author := e.author, url := e.url
    is_hybrid := e.is_hybrid, synonyms := [] }

/-- Whether an entry takes the accepted-species branch of the fold. -/
def isAcceptedType : EntryType → Bool
  | .ACCEPTED_SPECIES => true
  | .ACCEPTED_HYBRID => true
  | _ => false

/-- The effect of one entry on the `accepted_species` dict. -/
def accStep (acc : List (Str × SpeciesRec)) (e : Entry) : List (Str × SpeciesRec) :=
  if isAcceptedType e.entry_type then
    match alFind acc e.species_name with
    | none => alSet acc e.species_name (mkRec e)
    | some r =>
      let r1 := if truthy e.author && !truthy r.author then { r with author := e.author } else r
      let r2 := if e.is_hybrid then { r1 with is_hybrid := true } else r1
      alSet acc e.species_name r2
  else
    match alFind acc e.species_name with
    | none => alSet acc e.species_name (mkRec e)
    | some _ => acc

/-- Append one mapping to a synonym's list (`synonym_map[syn_name].append`). -/
def smAppend (sm : List (Str × List Mapping)) (k : Str) (m : Mapping) :
    List (Str × List Mapping) :=
  alSet sm k ((alFind sm k).getD [] ++ [m])

/-- The effect of one entry on the `synonym_map` dict: synonym-bearing
entry types append one mapping per truthy synonym name. -/
def smStep (sm : List (Str × List Mapping)) (e : Entry) : List (Str × List Mapping) :=
  if isAcceptedType e.entry_type then sm
  else
    e.synonyms.foldl
      (fun sm s =>
        if truthy s.name then smAppend sm (s.name.getD []) ⟨e.species_name, s.author⟩
        else sm)
      sm

/-- One iteration of the fold of `parse_species_list_html` over a parsed
entry (source lines 391-434). -/
def stepEntry (st : AggState) (e : Entry) : AggState :=
  { accepted := accStep st.accepted e, synMap := smStep st.synMap e }

/-- Folding a sequence of classified entries. -/
def foldEntries (st : AggState) (es : List Entry) : AggState :=
  es.foldl stepEntry st

/-- The final step (source lines 436-445): for every synonym mapping
whose accepted name has a record, append a `{name, author}` sub-entry to
that record, in synonym-map order. -/
def attachOne (kv : Str × List Mapping) (acc : List (Str × SpeciesRec)) :
    List (Str × SpeciesRec) :=
  kv.2.foldl
    (fun acc m =>
      match alFind acc m.accepted_name with
      | some r =>
        alSet acc m.accepted_name
          { r with synonyms := r.synonyms ++ [⟨kv.1, m.synonym_author⟩] }
      | none => acc)
    acc

def attachSynonyms (st : AggState) : AggState :=
  { st with accepted := st.synMap.foldl (fun acc kv => attachOne kv acc) st.accepted }

/-- `name_parser.parse_species_list_html`: split the markup into lines,
fold every parsed line, attach the synonym sub-entries, and return the
record list (dict value order) together with the synonym map. -/
def parse_species_list_html (html base : Str) : List SpeciesRec × List (Str × List Mapping) :=
  let st := (splitChar '\n' html).foldl
    (fun st ln =>
      match parse_line ln base with
      | none => st
      | some e => stepEntry st e)
    initState
  let st := attachSynonyms st
  (st.accepted.map Prod.snd, st.synMap)

/-! ## The chain resolver of `parser.resolve_synonym`

Source (parser.py, lines 206-217): a recursive walk with a visited set;
a recurring name is returned as-is, an unmapped name is final. The body
contains no `log_inconsistency` call, so the threaded note list passes
through every step unchanged. The recursion depth is bounded by the
number of map keys plus one; the embedding makes the depth explicit as
fuel, and exhausted fuel returns `none`. -/

/-- `resolve_synonym(name, synonym_map, visited)` with an explicit note
stream and explicit recursion-depth fuel. Returns
`some (final name, notes)` when the walk finishes within the fuel. -/
def resolveFuelR (m : List (Str × Str)) : Nat → Str → List Str → List Str →
    Option (Str × List Str)
  | 0, _, _, _ => none
  | fuel + 1, name, visited, notes =>
    if name ∈ visited then some (name, notes)
    else
      match alFind m name with
      | none => some (name, notes)
      | some next => resolveFuelR m fuel next (name :: visited) notes

/-- `parser.resolve_synonym(name, synonym_map)` at the call sites (fresh
visited set), with the sufficient fuel bound. -/
def resolve_synonym (m : List (Str × Str)) (name : Str) : Str :=
  ((resolveFuelR m (m.length + 1) name [] []).map Prod.fst).getD name

/-! ## The hand-off sort of `scraper.main`

Source (scraper.py line 183): `all_species.sort(key=lambda x: x['name'])`
immediately before `save_final_output(all_species)`. Python's sort is a
stable comparison sort, so it is extensionally the insertion sort by the
same key. String comparison is lexicographic on code points, which is the
lexicographic linear order on `List Char`. -/

/-- Ascending-by-name comparison used at the hand-off. -/
def recLeByName (a b : SpeciesRec) : Prop := a.name ≤ b.name

instance : DecidableRel recLeByName := fun a b => by
  unfold recLeByName; infer_instance

instance : IsTotal SpeciesRec recLeByName := ⟨fun a b => le_total a.name b.name⟩

instance : IsTrans SpeciesRec recLeByName := ⟨fun _ _ _ => le_trans⟩

/-- `all_species.sort(key=lambda x: x['name'])`. -/
def sortSpeciesByName (l : List SpeciesRec) : List SpeciesRec :=
  List.insertionSort recLeByName l

/-! ## Specification-side classifier (for the ordered-grammar claim)

This definition follows the wording of the specification's decision order
(spec section 4.3) and is compared against what `parse_line` actually
produces. -/

/-- The first-match classification order stated by the spec: a `: see`
separator wins, then an `= ` separator, then a line whose markup begins
with the authoritative link is an accepted hybrid or species according to
the hybrid-marker predicate, and anything else is the Other kind. -/
def claimedClassification (line : Str) : EntryType :=
  let sline := pyStrip line
  let visible := strip_html_tags sline
  if containsSeeSep visible then .SYNONYM_SEE
  else if containsEqSep visible then .SYNONYM_EQUALS
  else if startsWithLink sline then
    (if is_hybrid visible then .ACCEPTED_HYBRID else .ACCEPTED_SPECIES)
  else .OTHER_LINK

/-! ## Fold-analysis helpers -/

/-- The mappings a single entry appends to key `k` of the synonym map. -/
def entryDelta (e : Entry) (k : Str) : List Mapping :=
  if isAcceptedType e.entry_type then []
  else
    (e.synonyms.filter (fun s => truthy s.name && decide (s.name.getD [] = k))).map
      (fun s => ⟨e.species_name, s.author⟩)

/-- The mappings an entry sequence appends to key `k`, in fold order. -/
def esDelta (es : List Entry) (k : Str) : List Mapping :=
  (es.map (fun e => entryDelta e k)).flatten

/-- Appending `d` to the (possibly absent) list at a key. -/
def combineOpt (o : Option (List Mapping)) (d : List Mapping) : Option (List Mapping) :=
  match o with
  | some l => some (l ++ d)
  | none => if d.isEmpty then none else some d

/-- The stored record already carries everything entry `e` could
contribute: a truthy author if `e` has one, and the hybrid flag if `e`
sets it. -/
def recCovers (r : SpeciesRec) (e : Entry) : Prop :=
  (truthy e.author = true → truthy r.author = true) ∧
  (e.is_hybrid = true → r.is_hybrid = true)

/-- After a first fold, every folded entry finds its record present and
covered. -/
def goodFor (acc : List (Str × SpeciesRec)) (e : Entry) : Prop :=
  ∃ r, alFind acc e.species_name = some r ∧
    (isAcceptedType e.entry_type = true → recCovers r e)

/-- Count of map keys not yet visited: the termination measure of the
chain resolver's walk. -/
def unvisited (keys visited : List Str) : Nat :=
  match keys with
  | [] => 0
  | k :: ks => (if k ∈ visited then 0 else 1) + unvisited ks visited

/-! ## Concrete inputs used by witnesses and counterexamples -/

def baseURL : Str := "https://oaksoftheworld.fr/".toList

/-- A line whose visible text (`pagoda`) differs from the link-derived
name (`alba`). -/
def lineAlba : Str := "<a href=\"quercus_alba.htm\">pagoda</a> Mill.".toList

/-- The entry `parse_line` produces for `lineAlba`. -/
def entryAlba : Entry :=
  { entry_type := .ACCEPTED_SPECIES
    species_name := "alba".toList
    author := some "Mill.".toList
    url := "https://oaksoftheworld.fr/quercus_alba.htm".toList
    is_hybrid := false
    synonyms := []
    raw_line := lineAlba }

/-- The accepted-hybrid example line of the spec (Example 3), with the
hybrid symbol inside the link text so the markup starts with the link. -/
def lineSubfalcata : Str :=
  "<a href=\"quercus_subfalcata.htm\">× subfalcata</a> (x) Author Name".toList

/-- The entry `parse_line` actually produces for `lineSubfalcata`. -/
def entrySubfalcata : Entry :=
  { entry_type := .ACCEPTED_HYBRID
    species_name := "subfalcata".toList
    author := some "(x) Author Name".toList
    url := "https://oaksoftheworld.fr/quercus_subfalcata.htm".toList
    is_hybrid := true
    synonyms := []
    raw_line := lineSubfalcata }

/-- A line whose authoritative link sits mid-line. -/
def lineOther : Str := "text <a href=\"quercus_ilex.htm\">ilex</a> L.".toList

/-- The entry `parse_line` produces for `lineOther`. -/
def entryOther : Entry :=
  { entry_type := .OTHER_LINK
    species_name := "ilex".toList
    author := some "L.".toList
    url := "https://oaksoftheworld.fr/quercus_ilex.htm".toList
    is_hybrid := false
    synonyms := []
    raw_line := lineOther }

/-- A synonym-equals visible text whose right side starts with the
standalone hybrid token `x`. -/
def visEqualsX : Str := "frainetto Ten. = x petraea (Matt.) Liebl.".toList

/-- One classified synonym-equals entry, used to probe the fold. -/
def entrySynC : Entry :=
  { entry_type := .SYNONYM_EQUALS
    species_name := "corrugata".toList
    author := some "A.".toList
    url := "u".toList
    is_hybrid := false
    synonyms := [{ name := some "aaata".toList, author := none }]
    raw_line := [] }

/-- The one-entry sequence for the double-fold counterexample. -/
def esDouble : List Entry := [entrySynC]

/-- A stored record used to probe the merge policy. -/
def recProbe : SpeciesRec :=
  { name := "alba".toList, author := some "L.".toList
    url := "u".toList, is_hybrid := true, synonyms := [] }

/-- A state holding `recProbe`. -/
def stProbe : AggState := { accepted := [("alba".toList, recProbe)], synMap := [] }

/-- A later accepted-species entry for the same name with a different
author and a false hybrid flag. -/
def entryProbe : Entry :=
  { entry_type := .ACCEPTED_SPECIES
    species_name := "alba".toList
    author := some "Mill.".toList
    url := "u2".toList
    is_hybrid := false
    synonyms := []
    raw_line := [] }

/-- The two-cycle synonym mapping of spec Example 5. -/
def cycMapAB : List (Str × Str) := [(['a'], ['b']), (['b'], ['a'])]

/-- The entry `parse_synonym_equals` produces for `visEqualsX` (with a
placeholder URL, the link-derived name `petraea`, and an empty raw line). -/
def entryEqX : Entry :=
  { entry_type := .SYNONYM_EQUALS
    species_name := "petraea".toList
    author := some "(Matt.) Liebl.".toList
    url := "u".toList
    is_hybrid := false
    synonyms := [{ name := some "frainetto".toList, author := some "Ten.".toList }]
    raw_line := [] }

/-! # Theorems -/

/-! ## Association-list (Python dict) lemmas -/

theorem alFind_alSet_self {β : Type} (m : List (Str × β)) (k : Str) (v : β) :
    alFind (alSet m k v) k = some v := by
  induction m with
  | nil => simp [alSet, alFind]
  | cons kv rest ih =>
    obtain ⟨k', v'⟩ := kv
    by_cases h : k' = k
    · subst h; simp [alSet, alFind]
    · simp [alSet, alFind, h, ih]

theorem alFind_alSet_ne {β : Type} (m : List (Str × β)) (k k2 : Str) (v : β)
    (h : k2 ≠ k) : alFind (alSet m k v) k2 = alFind m k2 := by
  have h2 : k ≠ k2 := Ne.symm h
  induction m with
  | nil => simp [alSet, alFind, h2]
  | cons kv rest ih =>
    obtain ⟨k', v'⟩ := kv
    by_cases hk : k' = k
    · subst hk
      simp [alSet, alFind, h2]
    · simp [alSet, alFind, hk, ih]

theorem alSet_self {β : Type} (m : List (Str × β)) (k : Str) (v : β)
    (h : alFind m k = some v) : alSet m k v = m := by
  induction m with
  | nil => simp [alFind] at h
  | cons kv rest ih =>
    obtain ⟨k', v'⟩ := kv
    by_cases hk : k' = k
    · subst hk
      simp [alFind] at h
      simp [alSet, h]
    · simp [alFind, hk] at h
      simp [alSet, hk, ih h]

theorem alFind_mem_keys {β : Type} (m : List (Str × β)) (k : Str) (v : β)
    (h : alFind m k = some v) : k ∈ m.map Prod.fst := by
  induction m with
  | nil => simp [alFind] at h
  | cons kv rest ih =>
    obtain ⟨k', v'⟩ := kv
    by_cases hk : k' = k
    · subst hk
      simp only [List.map_cons]
      exact List.mem_cons_self _ _
    · simp [alFind, hk] at h
      simp [ih h]

/-! ## Chain resolver: termination measure -/

theorem unvisited_mono (keys : List Str) (visited : List Str) (n : Str) :
    unvisited keys (n :: visited) ≤ unvisited keys visited := by
  induction keys with
  | nil => simp [unvisited]
  | cons k ks ih =>
    simp only [unvisited]
    by_cases h : k ∈ visited
    · simp [h, List.mem_cons.mpr (Or.inr h)]
      exact ih
    · by_cases h2 : k ∈ n :: visited <;> simp [h, h2] <;> omega

theorem unvisited_strict (keys : List Str) (visited : List Str) (n : Str)
    (hmem : n ∈ keys) (hnv : n ∉ visited) :
    unvisited keys (n :: visited) < unvisited keys visited := by
  induction keys with
  | nil => simp at hmem
  | cons k ks ih =>
    simp only [unvisited]
    rcases List.mem_cons.mp hmem with hk | hk
    · subst hk
      have h1 : n ∈ n :: visited := List.mem_cons_self n visited
      have h2 := unvisited_mono ks visited n
      simp [hnv, h1]
      omega
    · by_cases h : k ∈ visited
      · simp [h, List.mem_cons.mpr (Or.inr h)]
        exact ih hk
      · by_cases h2 : k ∈ n :: visited <;> simp [h, h2] <;> have := ih hk <;> omega

theorem unvisited_le_length (keys visited : List Str) :
    unvisited keys visited ≤ keys.length := by
  induction keys with
  | nil => simp [unvisited]
  | cons k ks ih =>
    simp only [unvisited, List.length_cons]
    by_cases h : k ∈ visited <;> simp [h] <;> omega

theorem resolveFuelR_isSome (m : List (Str × Str)) :
    ∀ (fuel : Nat) (name : Str) (visited notes : List Str),
      unvisited (m.map Prod.fst) visited < fuel →
      (resolveFuelR m fuel name visited notes).isSome := by
  intro fuel
  induction fuel with
  | zero => intro name visited notes h; omega
  | succ fuel ih =>
    intro name visited notes h
    rw [resolveFuelR]
    by_cases hv : name ∈ visited
    · simp [hv]
    · simp only [hv, if_false]
      cases hfind : alFind m name with
      | none => simp
      | some next =>
        simp only []
        apply ih
        have hk := alFind_mem_keys m name next hfind
        have := unvisited_strict (m.map Prod.fst) visited name hk hv
        omega

theorem resolveFuelR_notes (m : List (Str × Str)) :
    ∀ (fuel : Nat) (name : Str) (visited notes : List Str) (r : Str) (ns : List Str),
      resolveFuelR m fuel name visited notes = some (r, ns) → ns = notes := by
  intro fuel
  induction fuel with
  | zero => intro name visited notes r ns h; simp [resolveFuelR] at h
  | succ fuel ih =>
    intro name visited notes r ns h
    rw [resolveFuelR] at h
    by_cases hv : name ∈ visited
    · simp [hv] at h
      exact h.2.symm
    · simp only [hv, if_false] at h
      cases hfind : alFind m name with
      | none => rw [hfind] at h; simp at h; exact h.2.symm
      | some next =>
        rw [hfind] at h
        exact ih next (name :: visited) notes r ns h

/-! ## Claim C7 -/

/-- C7: `resolve_synonym(name, map)` terminates for every finite synonym
mapping — one more step of fuel than the map has keys always suffices,
including for mappings containing a cycle of length at least two — and
returns a name (and the untouched note stream) rather than failing. -/
theorem claim_C7_resolve_terminates (m : List (Str × Str)) (name : Str) :
    ∃ r : Str, resolveFuelR m (m.length + 1) name [] [] = some (r, []) ∧
      resolve_synonym m name = r := by
  have hb : unvisited (m.map Prod.fst) [] < m.length + 1 := by
    have h1 := unvisited_le_length (m.map Prod.fst) []
    rw [List.length_map] at h1
    omega
  have hs := resolveFuelR_isSome m (m.length + 1) name [] [] hb
  cases hres : resolveFuelR m (m.length + 1) name [] [] with
  | none => rw [hres] at hs; simp at hs
  | some p =>
    obtain ⟨r, ns⟩ := p
    have hns := resolveFuelR_notes m (m.length + 1) name [] [] r ns hres
    subst hns
    refine ⟨r, rfl, ?_⟩
    unfold resolve_synonym
    rw [hres]
    rfl

/-! ## Claim C8 -/

/-- C8 counterexample: on the two-cycle `{a -> b, b -> a}` the walk for
`a` terminates and returns `a` with an *empty* note stream; the body of
`resolve_synonym` contains no reporter call, so no cycle note (let alone
exactly one) is emitted, contrary to the claim. -/
theorem claim_C8_counterexample :
    resolveFuelR cycMapAB (cycMapAB.length + 1) (['a'] : Str) [] [] = some (['a'], []) ∧
    (resolveFuelR cycMapAB (cycMapAB.length + 1) (['a'] : Str) [] []).map
      (fun p => p.2.length) ≠ some 1 := by
  constructor
  · decide
  · decide

/-- C8 amended: when a walk of the chain resolver reaches a name already
visited in the same walk, resolution stops and returns that name with the
note stream unchanged — no cycle note is emitted; in particular on
`{a -> b, b -> a}` resolving `a` terminates and deterministically returns
`a`, emitting no note. -/
theorem claim_C8_cycle_stops :
    (∀ (m : List (Str × Str)) (fuel : Nat) (name : Str) (visited notes : List Str),
        name ∈ visited →
        resolveFuelR m (fuel + 1) name visited notes = some (name, notes)) ∧
    resolveFuelR cycMapAB (cycMapAB.length + 1) (['a'] : Str) [] [] = some (['a'], []) := by
  constructor
  · intro m fuel name visited notes hv
    rw [resolveFuelR]
    simp [hv]
  · decide

/-- C8 witness: the recurrence rule of `claim_C8_cycle_stops` applied at a
concrete visited set. -/
theorem claim_C8_witness :
    resolveFuelR cycMapAB 1 (['a'] : Str) [['a']] [] = some (['a'], []) :=
  claim_C8_cycle_stops.1 cycMapAB 0 ['a'] [['a']] [] (by decide)

/-! ## Claim C9 -/

/-- C9: the accepted-record sequence handed to the export writer
(`all_species.sort(key=lambda x: x['name'])` immediately before
`save_final_output`) is sorted ascending by name, for every record
list. -/
theorem claim_C9_handoff_sorted (l : List SpeciesRec) :
    List.Sorted recLeByName (sortSpeciesByName l) :=
  List.sorted_insertionSort recLeByName l

/-! ## Claim C3 -/

/-- C3 counterexample: for the accepted-hybrid line whose visible text is
`× subfalcata (x) Author Name`, the produced author is
`(x) Author Name`, not `Author Name`: in the leading-symbol branch of
`parse_accepted_hybrid` only the leading hybrid symbol is removed, and the
embedded `(x)` marker after the name stays in the author string. -/
theorem claim_C3_counterexample :
    (parse_line lineSubfalcata baseURL).map (fun e => e.author)
      = some (some "(x) Author Name".toList) ∧
    (parse_line lineSubfalcata baseURL).map (fun e => e.author)
      ≠ some (some "Author Name".toList) := by
  constructor
  · decide
  · decide

/-- C3 amended: the line is classified as an accepted hybrid with name
`subfalcata` (from the link target) and `is_hybrid` true, but its author
is exactly `(x) Author Name`: the leading hybrid symbol is removed and the
next word is the name, while the embedded marker after the name is not
removed in this branch and remains in the author string. -/
theorem claim_C3_hybrid_line :
    parse_line lineSubfalcata baseURL = some entrySubfalcata := by
  decide

/-! ## Claim C4 -/

/-- C4: for every SYNONYM_EQUALS visible text whose right-hand side
(after the first `= ` split) has the first whitespace-delimited word
exactly `x` (case-insensitively) followed by at least one more word, the
parser takes the second word as the accepted-name text and joins the
words from the third onward as the accepted author; the `x` token is
neither the accepted-name text nor part of the author. -/
theorem claim_C4_equals_rhs_x (visible url sp raw : Str) (l r : Str)
    (x0 w : Str) (rest : List Str) (e : Entry)
    (hsplit : splitEq visible = some (l, r))
    (hw : pySplitWS (pyStrip r) = x0 :: w :: rest)
    (hx : pyLower (pyStrip x0) = "x".toList)
    (he : parse_synonym_equals visible url sp raw = some e) :
    eqRhsSplit (pySplitWS (pyStrip r)) = (some (pyStrip w), rest) ∧
    e.author = pyNormIfBlank (joinedAll rest) := by
  have h1 : eqRhsSplit (pySplitWS (pyStrip r)) = (some (pyStrip w), rest) := by
    rw [hw]
    unfold eqRhsSplit
    simp [hx]
  refine ⟨h1, ?_⟩
  unfold parse_synonym_equals at he
  rw [hsplit] at he
  simp only [] at he
  have he2 := Option.some.inj he
  rw [← he2]
  simp only [h1]

/-- C4 witness: the rule applied to the concrete visible text
`frainetto Ten. = x petraea (Matt.) Liebl.`. -/
theorem claim_C4_witness :
    eqRhsSplit (pySplitWS (pyStrip "x petraea (Matt.) Liebl.".toList))
      = (some "petraea".toList, ["(Matt.)".toList, "Liebl.".toList]) ∧
    entryEqX.author = pyNormIfBlank (joinedAll ["(Matt.)".toList, "Liebl.".toList]) :=
  claim_C4_equals_rhs_x visEqualsX "u".toList "petraea".toList []
    "frainetto Ten.".toList "x petraea (Matt.) Liebl.".toList
    "x".toList "petraea".toList ["(Matt.)".toList, "Liebl.".toList] entryEqX
    (by decide) (by decide) (by decide) (by decide)

/-! ## Claim C5 -/

/-- C5: when an ACCEPTED_SPECIES or ACCEPTED_HYBRID entry meets an
existing record (at any state, hence at every position of any fold), the
record's author is only filled when currently absent — a non-empty stored
author is never overwritten, and an entry without an author never erases
one — and the hybrid flag is set by a hybrid entry and never reset from
true to false. -/
theorem claim_C5_merge_policy (st : AggState) (e : Entry) (r : SpeciesRec)
    (ht : isAcceptedType e.entry_type = true)
    (hf : alFind st.accepted e.species_name = some r) :
    ∃ r', alFind (stepEntry st e).accepted e.species_name = some r' ∧
      (∀ a : Str, r.author = some a → a ≠ [] → r'.author = some a) ∧
      (e.author = none → r'.author = r.author) ∧
      (e.is_hybrid = true → r'.is_hybrid = true) ∧
      (r.is_hybrid = true → r'.is_hybrid = true) := by
  have hstep : (stepEntry st e).accepted =
      alSet st.accepted e.species_name
        (if e.is_hybrid then
          { (if truthy e.author && !truthy r.author then { r with author := e.author } else r)
              with is_hybrid := true }
         else
          (if truthy e.author && !truthy r.author then { r with author := e.author } else r)) := by
    show accStep st.accepted e = _
    unfold accStep
    simp [ht, hf]
  refine ⟨_, by rw [hstep]; exact alFind_alSet_self _ _ _, ?_, ?_, ?_, ?_⟩
  · intro a ha hne
    have hta : truthy (some a) = true := by
      cases a with
      | nil => exact absurd rfl hne
      | cons x xs => rfl
    by_cases hh : e.is_hybrid <;> simp [hh, ha, hta]
  · intro hnone
    have htr : truthy e.author = false := by rw [hnone]; rfl
    by_cases hh : e.is_hybrid <;> simp [hh, htr]
  · intro hh
    simp [hh]
  · intro hr
    by_cases hh : e.is_hybrid
    · simp [hh]
    · by_cases hc : truthy e.author = true ∧ truthy r.author = false <;> simp [hh, hc, hr]

/-- C5 witness: the merge policy applied at a concrete state holding an
authored hybrid record and a later non-hybrid entry with another author. -/
theorem claim_C5_witness :
    ∃ r', alFind (stepEntry stProbe entryProbe).accepted entryProbe.species_name = some r' ∧
      (∀ a : Str, recProbe.author = some a → a ≠ [] → r'.author = some a) ∧
      (entryProbe.author = none → r'.author = recProbe.author) ∧
      (entryProbe.is_hybrid = true → r'.is_hybrid = true) ∧
      (recProbe.is_hybrid = true → r'.is_hybrid = true) :=
  claim_C5_merge_policy stProbe entryProbe recProbe (by decide) (by decide)

/-! ## Structure of `parse_line` results (shared by the line claims) -/

theorem searchSpecies_ne_nil : ∀ (s r : Str), searchSpecies s = some r → r ≠ [] := by
  intro s
  induction s with
  | nil => intro r h; simp [searchSpecies] at h
  | cons c cs ih =>
    intro r h
    simp only [searchSpecies] at h
    split at h
    · split at h
      · exact ih r h
      · split at h
        · have hr := Option.some.inj h
          subst hr
          rename_i hrun _
          intro hnil
          rw [hnil] at hrun
          simp at hrun
        · exact ih r h
    · exact ih r h

theorem parse_accepted_species_fields (v u sp raw : Str) (e : Entry)
    (h : parse_accepted_species v u sp raw = some e) :
    e.species_name = sp ∧ e.entry_type = .ACCEPTED_SPECIES ∧ e.synonyms = [] := by
  unfold parse_accepted_species at h
  split at h
  · exact absurd h (by simp)
  · obtain rfl := Option.some.inj h
    exact ⟨rfl, rfl, rfl⟩

theorem parse_accepted_hybrid_fields (v u sp raw : Str) :
    (parse_accepted_hybrid v u sp raw).species_name = sp ∧
    (parse_accepted_hybrid v u sp raw).entry_type = .ACCEPTED_HYBRID ∧
    (parse_accepted_hybrid v u sp raw).synonyms = [] :=
  ⟨rfl, rfl, rfl⟩

theorem parse_synonym_equals_fields (v u sp raw : Str) (e : Entry)
    (h : parse_synonym_equals v u sp raw = some e) :
    e.species_name = sp ∧ e.entry_type = .SYNONYM_EQUALS ∧ e.synonyms.length = 1 := by
  unfold parse_synonym_equals at h
  split at h
  · exact absurd h (by simp)
  · obtain rfl := Option.some.inj h
    exact ⟨rfl, rfl, rfl⟩

theorem parse_synonym_see_fields (v u sp raw : Str) (e : Entry)
    (h : parse_synonym_see v u sp raw = some e) :
    e.species_name = sp ∧ e.entry_type = .SYNONYM_SEE := by
  unfold parse_synonym_see at h
  split at h
  · exact absurd h (by simp)
  · obtain rfl := Option.some.inj h
    exact ⟨rfl, rfl⟩

theorem parse_other_link_fields (v u sp raw : Str) :
    (parse_other_link v u sp raw).species_name = sp ∧
    (parse_other_link v u sp raw).entry_type = .OTHER_LINK ∧
    (parse_other_link v u sp raw).synonyms = [] :=
  ⟨rfl, rfl, rfl⟩

/-- Master decomposition of a successful `parse_line`: the entry's name
is the link-derived identifier of the first link, non-empty; its type is
the spec's first-match classification; and the synonym list has the shape
the entry type dictates. -/
theorem parse_line_shape (line base : Str) (e : Entry)
    (h : parse_line line base = some e) :
    ∃ href t rest sp,
      extract_links_from_line (pyStrip line) = (href, t) :: rest ∧
      extract_species_from_url href = some sp ∧ sp ≠ [] ∧
      e.species_name = sp ∧
      e.entry_type = claimedClassification line ∧
      ((e.entry_type = .ACCEPTED_SPECIES ∨ e.entry_type = .ACCEPTED_HYBRID ∨
        e.entry_type = .OTHER_LINK) → e.synonyms = []) ∧
      (e.entry_type = .SYNONYM_EQUALS → e.synonyms.length = 1) := by
  unfold parse_line at h
  simp only [] at h
  cases hl : extract_links_from_line (pyStrip line) with
  | nil => rw [hl] at h; exact absurd h (by simp)
  | cons hd rest =>
    obtain ⟨href, t⟩ := hd
    rw [hl] at h
    simp only [] at h
    cases hs : extract_species_from_url href with
    | none => rw [hs] at h; exact absurd h (by simp)
    | some sp =>
      rw [hs] at h
      simp only [] at h
      have hne : sp ≠ [] := searchSpecies_ne_nil href sp hs
      have hemp : sp.isEmpty = false := by
        cases sp with
        | nil => exact absurd rfl hne
        | cons x xs => rfl
      rw [hemp] at h
      simp only [Bool.false_eq_true, if_false] at h
      refine ⟨href, t, rest, sp, rfl, hs, hne, ?_⟩
      by_cases hsee : containsSeeSep (strip_html_tags (pyStrip line))
      · rw [if_pos hsee] at h
        obtain ⟨h1, h2⟩ := parse_synonym_see_fields _ _ _ _ _ h
        refine ⟨h1, ?_, ?_, ?_⟩
        · rw [h2]; unfold claimedClassification; rw [if_pos hsee]
        · intro hty; rw [h2] at hty; rcases hty with h' | h' | h' <;> exact absurd h' (by simp)
        · intro hty; rw [h2] at hty; exact absurd hty (by simp)
      · rw [if_neg hsee] at h
        by_cases heq : containsEqSep (strip_html_tags (pyStrip line))
        · rw [if_pos heq] at h
          obtain ⟨h1, h2, h3⟩ := parse_synonym_equals_fields _ _ _ _ _ h
          refine ⟨h1, ?_, ?_, ?_⟩
          · rw [h2]; unfold claimedClassification; rw [if_neg hsee, if_pos heq]
          · intro hty; rw [h2] at hty; rcases hty with h' | h' | h' <;> exact absurd h' (by simp)
          · intro _; exact h3
        · rw [if_neg heq] at h
          by_cases hst : startsWithLink (pyStrip line)
          · rw [if_pos hst] at h
            by_cases hhy : is_hybrid (strip_html_tags (pyStrip line))
            · rw [if_pos hhy] at h
              obtain rfl := Option.some.inj h
              obtain ⟨h1, h2, h3⟩ := parse_accepted_hybrid_fields
                (strip_html_tags (pyStrip line)) (pyUrljoin base href) sp (pyStrip line)
              refine ⟨h1, ?_, fun _ => h3, ?_⟩
              · rw [h2]; unfold claimedClassification
                rw [if_neg hsee, if_neg heq, if_pos hst, if_pos hhy]
              · intro hty; rw [h2] at hty; exact absurd hty (by simp)
            · rw [if_neg hhy] at h
              obtain ⟨h1, h2, h3⟩ := parse_accepted_species_fields _ _ _ _ _ h
              refine ⟨h1, ?_, fun _ => h3, ?_⟩
              · rw [h2]; unfold claimedClassification
                rw [if_neg hsee, if_neg heq, if_pos hst, if_neg hhy]
              · intro hty; rw [h2] at hty; exact absurd hty (by simp)
          · rw [if_neg hst] at h
            obtain rfl := Option.some.inj h
            obtain ⟨h1, h2, h3⟩ := parse_other_link_fields
              (strip_html_tags (pyStrip line)) (pyUrljoin base href) sp (pyStrip line)
            refine ⟨h1, ?_, fun _ => h3, ?_⟩
            · rw [h2]; unfold claimedClassification
              rw [if_neg hsee, if_neg heq, if_neg hst]
            · intro hty; rw [h2] at hty; exact absurd hty (by simp)

/-! ## Claim C1 -/

/-- C1: whenever `parse_line` returns an entry, the entry's
`species_name` is non-empty and equals the identifier extracted from the
first extracted link's target URL; it is never taken from the visible
text (all five sub-parsers copy the URL-derived argument). -/
theorem claim_C1_species_from_url (line base : Str) (e : Entry)
    (h : parse_line line base = some e) :
    e.species_name ≠ [] ∧
    ∃ href t rest, extract_links_from_line (pyStrip line) = (href, t) :: rest ∧
      extract_species_from_url href = some e.species_name := by
  obtain ⟨href, t, rest, sp, hl, hs, hne, hname, _⟩ := parse_line_shape line base e h
  rw [hname]
  exact ⟨hne, href, t, rest, hl, hs⟩

/-- C1 witness: a line whose visible text (`pagoda`) differs from the
link-derived identifier (`alba`); the entry's name is `alba`. -/
theorem claim_C1_witness :
    entryAlba.species_name ≠ [] ∧
    ∃ href t rest, extract_links_from_line (pyStrip lineAlba) = (href, t) :: rest ∧
      extract_species_from_url href = some entryAlba.species_name :=
  claim_C1_species_from_url lineAlba baseURL entryAlba (by decide)

/-! ## Claim C2 -/

/-- C2: every line that `parse_line` classifies is classified by exactly
the first-match order of the spec: a `: see` separator yields
SYNONYM_SEE; otherwise an `=` followed by whitespace yields
SYNONYM_EQUALS; otherwise a line whose markup begins (after wrapping
tags) with the authoritative link is ACCEPTED_HYBRID or ACCEPTED_SPECIES
according to the hybrid-marker predicate; otherwise OTHER. -/
theorem claim_C2_classification_order (line base : Str) (e : Entry)
    (h : parse_line line base = some e) :
    e.entry_type = claimedClassification line := by
  obtain ⟨_, _, _, _, _, _, _, _, hcls, _⟩ := parse_line_shape line base e h
  exact hcls

/-- C2 witness: the classification order applied to a concrete
accepted-species line. -/
theorem claim_C2_witness :
    entryAlba.entry_type = claimedClassification lineAlba :=
  claim_C2_classification_order lineAlba baseURL entryAlba (by decide)

/-! ## Claim C10 -/

theorem smFold_no_truthy (sp : Str) :
    ∀ (syns : List SynRec) (sm : List (Str × List Mapping)),
      (∀ s ∈ syns, truthy s.name = false) →
      List.foldl
        (fun sm s =>
          if truthy s.name then smAppend sm (s.name.getD []) ⟨sp, s.author⟩ else sm)
        sm syns = sm := by
  intro syns
  induction syns with
  | nil => intro sm _; rfl
  | cons s ss ih =>
    intro sm hall
    have hs := hall s (List.mem_cons_self s ss)
    simp only [List.foldl_cons, hs, Bool.false_eq_true, if_false]
    exact ih sm (fun s' hmem => hall s' (List.mem_cons_of_mem s hmem))

/-- C10: entries returned by `parse_line` have an empty synonym list for
ACCEPTED_SPECIES, ACCEPTED_HYBRID and OTHER_LINK, and exactly one synonym
sub-record for SYNONYM_EQUALS; consequently an OTHER_LINK entry never
changes the synonym mapping, and a SYNONYM_EQUALS entry whose single
sub-record has an absent (or empty) name adds no synonym mapping
either. -/
theorem claim_C10_synonym_shape (line base : Str) (e : Entry)
    (h : parse_line line base = some e) :
    ((e.entry_type = .ACCEPTED_SPECIES ∨ e.entry_type = .ACCEPTED_HYBRID ∨
      e.entry_type = .OTHER_LINK) → e.synonyms = []) ∧
    (e.entry_type = .SYNONYM_EQUALS → e.synonyms.length = 1) ∧
    (∀ st : AggState, e.entry_type = .OTHER_LINK → (stepEntry st e).synMap = st.synMap) ∧
    (∀ st : AggState, e.entry_type = .SYNONYM_EQUALS →
      (∀ s ∈ e.synonyms, truthy s.name = false) → (stepEntry st e).synMap = st.synMap) := by
  obtain ⟨_, _, _, _, _, _, _, _, _, hempty, hlen⟩ := parse_line_shape line base e h
  refine ⟨hempty, hlen, ?_, ?_⟩
  · intro st hty
    have hsyn : e.synonyms = [] := hempty (Or.inr (Or.inr hty))
    show smStep st.synMap e = st.synMap
    unfold smStep
    rw [hty, hsyn]
    simp [isAcceptedType]
  · intro st hty hfalse
    show smStep st.synMap e = st.synMap
    unfold smStep
    rw [hty]
    simp only [isAcceptedType, Bool.false_eq_true, if_false]
    exact smFold_no_truthy e.species_name e.synonyms st.synMap hfalse

/-- C10 witness: the synonym-shape facts at a concrete mid-line-link
(OTHER_LINK) entry. -/
theorem claim_C10_witness :
    ((entryOther.entry_type = .ACCEPTED_SPECIES ∨
      entryOther.entry_type = .ACCEPTED_HYBRID ∨
      entryOther.entry_type = .OTHER_LINK) → entryOther.synonyms = []) ∧
    (entryOther.entry_type = .SYNONYM_EQUALS → entryOther.synonyms.length = 1) ∧
    (∀ st : AggState, entryOther.entry_type = .OTHER_LINK →
      (stepEntry st entryOther).synMap = st.synMap) ∧
    (∀ st : AggState, entryOther.entry_type = .SYNONYM_EQUALS →
      (∀ s ∈ entryOther.synonyms, truthy s.name = false) →
      (stepEntry st entryOther).synMap = st.synMap) :=
  claim_C10_synonym_shape lineOther baseURL entryOther (by decide)

/-! ## Claim C6 -/

/-- C6 counterexample: folding a one-entry synonym sequence twice does
not reproduce the once-folded synonym mapping — the mapping list for
`aaata` is duplicated — and the final attach step copies both duplicates
onto the record without de-duplicating by name. -/
theorem claim_C6_counterexample :
    (foldEntries (foldEntries initState esDouble) esDouble).synMap ≠
      (foldEntries initState esDouble).synMap ∧
    (alFind (attachSynonyms (foldEntries (foldEntries initState esDouble) esDouble)).accepted
        "corrugata".toList).map (fun r => r.synonyms) =
      some [⟨"aaata".toList, none⟩, ⟨"aaata".toList, none⟩] := by
  constructor
  · decide
  · decide

theorem foldEntries_parts (st : AggState) (es : List Entry) :
    foldEntries st es =
      ⟨List.foldl accStep st.accepted es, List.foldl smStep st.synMap es⟩ := by
  induction es generalizing st with
  | nil => rfl
  | cons e es ih =>
    show foldEntries (stepEntry st e) es = _
    rw [ih]
    rfl

theorem combineOpt_nil (o : Option (List Mapping)) : combineOpt o [] = o := by
  cases o <;> simp [combineOpt]

theorem combineOpt_assoc (o : Option (List Mapping)) (d1 d2 : List Mapping) :
    combineOpt (combineOpt o d1) d2 = combineOpt o (d1 ++ d2) := by
  cases o with
  | some l => simp [combineOpt]
  | none =>
    cases d1 with
    | nil => simp [combineOpt]
    | cons x xs => simp [combineOpt]

theorem alFind_smAppend (sm : List (Str × List Mapping)) (k0 k : Str) (mp : Mapping) :
    alFind (smAppend sm k0 mp) k = combineOpt (alFind sm k) (if k0 = k then [mp] else []) := by
  by_cases hk : k0 = k
  · subst hk
    unfold smAppend
    rw [alFind_alSet_self]
    cases hf : alFind sm k0 with
    | none => simp [combineOpt]
    | some l => simp [combineOpt]
  · unfold smAppend
    rw [alFind_alSet_ne _ _ _ _ (Ne.symm hk)]
    simp [hk, combineOpt_nil]

theorem alFind_synFold (sp : Str) :
    ∀ (syns : List SynRec) (sm : List (Str × List Mapping)) (k : Str),
      alFind
        (List.foldl
          (fun sm s =>
            if truthy s.name then smAppend sm (s.name.getD []) ⟨sp, s.author⟩ else sm)
          sm syns) k
      = combineOpt (alFind sm k)
          ((syns.filter (fun s => truthy s.name && decide (s.name.getD [] = k))).map
            (fun s => ⟨sp, s.author⟩)) := by
  intro syns
  induction syns with
  | nil => intro sm k; simp [combineOpt_nil]
  | cons s ss ih =>
    intro sm k
    simp only [List.foldl_cons]
    by_cases hs : truthy s.name
    · simp only [hs, if_true]
      rw [ih, alFind_smAppend, combineOpt_assoc]
      by_cases hk : s.name.getD [] = k
      · simp [List.filter_cons, hs, hk]
      · simp [List.filter_cons, hs, hk]
    · simp only [hs, Bool.false_eq_true, if_false]
      rw [ih]
      simp [List.filter_cons, hs]

theorem alFind_smStep (sm : List (Str × List Mapping)) (e : Entry) (k : Str) :
    alFind (smStep sm e) k = combineOpt (alFind sm k) (entryDelta e k) := by
  unfold smStep entryDelta
  by_cases ht : isAcceptedType e.entry_type
  · simp [ht, combineOpt_nil]
  · simp only [ht, Bool.false_eq_true, if_false]
    exact alFind_synFold e.species_name e.synonyms sm k

theorem alFind_foldl_smStep (es : List Entry) :
    ∀ (sm : List (Str × List Mapping)) (k : Str),
      alFind (List.foldl smStep sm es) k = combineOpt (alFind sm k) (esDelta es k) := by
  induction es with
  | nil => intro sm k; simp [esDelta, combineOpt_nil]
  | cons e es ih =>
    intro sm k
    simp only [List.foldl_cons]
    rw [ih, alFind_smStep, combineOpt_assoc]
    simp [esDelta]

theorem accStep_persist (acc : List (Str × SpeciesRec)) (e : Entry) (k : Str)
    (r : SpeciesRec) (hf : alFind acc k = some r) :
    ∃ r', alFind (accStep acc e) k = some r' ∧
      (truthy r.author = true → r'.author = r.author) ∧
      (r.is_hybrid = true → r'.is_hybrid = true) := by
  unfold accStep
  by_cases ht : isAcceptedType e.entry_type
  · simp only [ht, if_true]
    cases hfe : alFind acc e.species_name with
    | none =>
      by_cases hk : e.species_name = k
      · subst hk
        rw [hf] at hfe
        exact absurd hfe (by simp)
      · rw [alFind_alSet_ne _ _ _ _ (Ne.symm hk), hf]
        exact ⟨r, rfl, fun _ => rfl, fun h => h⟩
    | some r0 =>
      by_cases hk : e.species_name = k
      · subst hk
        rw [hf] at hfe
        obtain rfl := Option.some.inj hfe
        rw [alFind_alSet_self]
        refine ⟨_, rfl, ?_, ?_⟩
        · intro htr
          by_cases hh : e.is_hybrid <;> simp [hh, htr]
        · intro hr
          by_cases hh : e.is_hybrid
          · simp [hh]
          · by_cases hc : truthy e.author = true ∧ truthy r.author = false <;>
              simp [hh, hc, hr]
      · rw [alFind_alSet_ne _ _ _ _ (Ne.symm hk), hf]
        exact ⟨r, rfl, fun _ => rfl, fun h => h⟩
  · simp only [ht, Bool.false_eq_true, if_false]
    cases hfe : alFind acc e.species_name with
    | none =>
      by_cases hk : e.species_name = k
      · subst hk
        rw [hf] at hfe
        exact absurd hfe (by simp)
      · rw [alFind_alSet_ne _ _ _ _ (Ne.symm hk), hf]
        exact ⟨r, rfl, fun _ => rfl, fun h => h⟩
    | some r0 => exact ⟨r, hf, fun _ => rfl, fun h => h⟩

theorem accStep_good (acc : List (Str × SpeciesRec)) (e : Entry) :
    goodFor (accStep acc e) e := by
  unfold goodFor accStep
  by_cases ht : isAcceptedType e.entry_type
  · simp only [ht, if_true]
    cases hfe : alFind acc e.species_name with
    | none =>
      refine ⟨mkRec e, alFind_alSet_self _ _ _, fun _ => ⟨fun ha => ha, fun hh => hh⟩⟩
    | some r0 =>
      rw [alFind_alSet_self]
      refine ⟨_, rfl, fun _ => ⟨?_, ?_⟩⟩
      · intro hea
        by_cases hc : truthy r0.author = true
        · by_cases hh : e.is_hybrid <;> simp [hh, hea, hc]
        · have hc2 : truthy r0.author = false := by
            cases hcc : truthy r0.author
            · rfl
            · exact absurd hcc hc
          by_cases hh : e.is_hybrid <;> simp [hh, hea, hc2]
      · intro hh
        simp [hh]
  · simp only [ht, Bool.false_eq_true, if_false]
    cases hfe : alFind acc e.species_name with
    | none =>
      exact ⟨mkRec e, alFind_alSet_self _ _ _, fun hcontra => hcontra.elim⟩
    | some r0 => exact ⟨r0, hfe, fun hcontra => hcontra.elim⟩

theorem goodFor_accStep (acc : List (Str × SpeciesRec)) (e' e : Entry)
    (hg : goodFor acc e) : goodFor (accStep acc e') e := by
  obtain ⟨r, hf, hc⟩ := hg
  obtain ⟨r', hf', hpa, hph⟩ := accStep_persist acc e' e.species_name r hf
  refine ⟨r', hf', fun ht => ?_⟩
  obtain ⟨hca, hch⟩ := hc ht
  refine ⟨?_, ?_⟩
  · intro hea
    have h1 := hca hea
    rw [hpa h1]
    exact h1
  · intro heh
    exact hph (hch heh)

theorem goodFor_foldl (es : List Entry) :
    ∀ (acc : List (Str × SpeciesRec)) (e : Entry),
      goodFor acc e → goodFor (List.foldl accStep acc es) e := by
  induction es with
  | nil => intro acc e hg; exact hg
  | cons x xs ih =>
    intro acc e hg
    simp only [List.foldl_cons]
    exact ih (accStep acc x) e (goodFor_accStep acc x e hg)

theorem foldl_accStep_good (es : List Entry) :
    ∀ (acc : List (Str × SpeciesRec)) (e : Entry), e ∈ es →
      goodFor (List.foldl accStep acc es) e := by
  induction es with
  | nil => intro acc e he; simp at he
  | cons x xs ih =>
    intro acc e he
    simp only [List.foldl_cons]
    rcases List.mem_cons.mp he with rfl | hmem
    · exact goodFor_foldl xs (accStep acc e) e (accStep_good acc e)
    · exact ih (accStep acc x) e hmem

theorem accStep_stable (acc : List (Str × SpeciesRec)) (e : Entry)
    (hg : goodFor acc e) : accStep acc e = acc := by
  obtain ⟨r, hf, hc⟩ := hg
  unfold accStep
  by_cases ht : isAcceptedType e.entry_type
  · obtain ⟨hca, hch⟩ := hc ht
    simp only [ht, if_true, hf]
    have hr1 :
        (if truthy e.author && !truthy r.author then { r with author := e.author } else r)
          = r := by
      by_cases hea : truthy e.author
      · simp [hca hea]
      · simp [hea]
    rw [hr1]
    have hr2 : (if e.is_hybrid then { r with is_hybrid := true } else r) = r := by
      by_cases hh : e.is_hybrid
      · have hrh := hch hh
        cases r
        simp at hrh
        simp [hh, hrh]
      · simp [hh]
    rw [hr2]
    exact alSet_self acc e.species_name r hf
  · simp only [ht, Bool.false_eq_true, if_false, hf]

theorem foldl_accStep_stable (es : List Entry) :
    ∀ acc : List (Str × SpeciesRec),
      (∀ e ∈ es, goodFor acc e) → List.foldl accStep acc es = acc := by
  induction es with
  | nil => intro acc _; rfl
  | cons x xs ih =>
    intro acc hall
    simp only [List.foldl_cons]
    rw [accStep_stable acc x (hall x (List.mem_cons_self x xs))]
    exact ih acc (fun e he => hall e (List.mem_cons_of_mem x he))

/-- C6 amended: folding the same classified-entry sequence through the
aggregator a second time leaves the accepted-record map exactly as after
one fold (no author is overwritten, no record added), but the synonym
mapping is not idempotent: every synonym's mapping list after the second
fold is its once-folded list concatenated with itself, so duplicate
synonym entries are created; the final attach step copies one sub-entry
per mapping without de-duplication. -/
theorem claim_C6_double_fold (es : List Entry) :
    (foldEntries (foldEntries initState es) es).accepted
      = (foldEntries initState es).accepted ∧
    ∀ k, alFind (foldEntries (foldEntries initState es) es).synMap k
      = (alFind (foldEntries initState es).synMap k).map (fun l => l ++ l) := by
  rw [foldEntries_parts initState es, foldEntries_parts]
  constructor
  · exact foldl_accStep_stable es _ (fun e he => foldl_accStep_good es [] e he)
  · intro k
    show alFind (List.foldl smStep (List.foldl smStep initState.synMap es) es) k
      = (alFind (List.foldl smStep initState.synMap es) k).map (fun l => l ++ l)
    rw [alFind_foldl_smStep, alFind_foldl_smStep]
    show combineOpt (combineOpt (alFind [] k) (esDelta es k)) (esDelta es k)
      = (combineOpt (alFind [] k) (esDelta es k)).map (fun l => l ++ l)
    cases hD : esDelta es k with
    | nil => simp [combineOpt, alFind]
    | cons x xs => simp [combineOpt, alFind]
